import Mathlib

/-!
Shallow embedding of the `uncovered` tool (github.com/hanpama/uncovered).

Two source units are embedded:
* `coverage/uncovered.go` — the line extractor `GetUncoveredLines`;
* the renderer package — `groupLines`, `renderGroup`, `renderLine`,
  `printFileHeader`, `renderFile`, `Render`.

Go maps are modelled as association lists in insertion order; Go map
iteration order is irrelevant to the observable result because every
map-derived sequence is sorted before it is returned, and all keys are
distinct.  `sort.Slice` is modelled by `List.insertionSort` with the same
comparator (keys are pairwise distinct, so any correct sort yields the
same list).  Writing to an `io.Writer` is modelled as returning the list
of written lines.  Reading a source file from disk is modelled by a
function `String → Except String (List String)` giving either the file's
lines or an error.
-/

namespace coverage

/-- Modelled from the spec: the `Profile`/`Block` model (profile.go) is not
under src/; spec §3 gives the fields and `isCovered() ⇔ executionCount > 0`. -/
structure Block where
  FileName : String
  StartLine : Nat
  StartCol : Nat
  EndLine : Nat
  EndCol : Nat
  ExecutionCount : Nat
deriving DecidableEq

/-- Modelled from the spec: `isCovered() ⇔ executionCount > 0` (spec §3). -/
def Block.IsCovered (b : Block) : Bool := b.ExecutionCount > 0

/-- Modelled from the spec: a profile is the list of parsed blocks. -/
structure Profile where
  Blocks : List Block
deriving DecidableEq

/-- `UncoveredLine` from coverage/uncovered.go. -/
structure UncoveredLine where
  Line : Nat
  Col : Nat
deriving DecidableEq

/-- `FileUncovered` from coverage/uncovered.go. -/
structure FileUncovered where
  FileName : String
  Lines : List UncoveredLine
deriving DecidableEq

/-- The inner `map[int]int` (line → column), as an association list. -/
abbrev LineMap := List (Nat × Nat)

/-- The outer `map[string]map[int]int` (filename → line → column). -/
abbrev FileMap := List (String × LineMap)

/-- Go map read (the `exists` test and the value), for either map level. -/
def alookup {α β : Type} [DecidableEq α] : List (α × β) → α → Option β
  | [], _ => none
  | p :: rest, k => if p.1 = k then some p.2 else alookup rest k

/-- Go map write on a key that is already present: replace its value. -/
def aset {α β : Type} [DecidableEq α] (l : List (α × β)) (k : α) (F : β → β) :
    List (α × β) :=
  l.map (fun p => if p.1 = k then (p.1, F p.2) else p)

/-- The keys of an association-list map, in insertion order. -/
def akeys {α β : Type} (l : List (α × β)) : List α := l.map Prod.fst

/-- The write `fileMap[name][line] = col` on a line key already present. -/
def setCol (lm : LineMap) (n c : Nat) : LineMap := aset lm n (fun _ => c)

/-- Lines 49–51 of uncovered.go: `if existingCol, exists := ...; !exists ||
col < existingCol { fileMap[...][line] = col }`. -/
def updateLine (lm : LineMap) (n c : Nat) : LineMap :=
  match alookup lm n with
  | none => lm ++ [(n, c)]
  | some existing => if c < existing then setCol lm n c else lm

/-- Lines 38–40 of uncovered.go: create the inner map if absent. -/
def ensureFile (fm : FileMap) (f : String) : FileMap :=
  match alookup fm f with
  | none => fm ++ [(f, [])]
  | some _ => fm

/-- The write `fileMap[b.FileName][line] = col` guarded as in `updateLine`. -/
def updateFileLine (fm : FileMap) (f : String) (n c : Nat) : FileMap :=
  aset fm f (fun lm => updateLine lm n c)

/-- Lookup of a `(file, line)` cell through both map levels. -/
def lookupFileLine (fm : FileMap) (f : String) (n : Nat) : Option Nat :=
  (alookup fm f).bind (fun lm => alookup lm n)

/-- Merge of the recorded column with a candidate (lines 49–51): absent
means take the candidate, present means keep the smaller. -/
def mergeCol (o : Option Nat) (c : Nat) : Nat :=
  match o with
  | none => c
  | some x => min x c

/-- Folding a list of candidate columns into the recorded column. -/
def foldMerge (o : Option Nat) (cs : List Nat) : Option Nat :=
  cs.foldl (fun o c => some (mergeCol o c)) o

/-- The lines visited by `for line := b.StartLine; line <= b.EndLine; line++`. -/
def blockLines (b : Block) : List Nat :=
  List.range' b.StartLine (b.EndLine + 1 - b.StartLine)

/-- Lines 44–47 of uncovered.go: column candidate for one visited line. -/
def colFor (b : Block) (n : Nat) : Nat :=
  if n = b.StartLine then b.StartCol else 0

/-- The candidate columns contributed to cell `(f, n)` by the blocks, in
block order: one candidate per uncovered block whose visited lines
include `n`. -/
def candCols (bs : List Block) (f : String) (n : Nat) : List Nat :=
  bs.filterMap (fun b =>
    if b.IsCovered = false ∧ b.FileName = f ∧ n ∈ blockLines b then
      some (colFor b n)
    else none)

/-- One iteration of the outer block loop (lines 33–53 of uncovered.go). -/
def processBlock (fm : FileMap) (b : Block) : FileMap :=
  if b.IsCovered then fm
  else
    (blockLines b).foldl (fun m n => updateFileLine m b.FileName n (colFor b n))
      (ensureFile fm b.FileName)

/-- The whole block loop, starting from the empty map. -/
def buildFileMap (blocks : List Block) : FileMap :=
  blocks.foldl processBlock []

/-- Comparator of the line sort (lines 64–66): by line number. -/
def lineLe (a b : UncoveredLine) : Prop := a.Line ≤ b.Line

/-- Strict version of `lineLe`; used to state sortedness + distinctness. -/
def lineLt (a b : UncoveredLine) : Prop := a.Line < b.Line

instance : DecidableRel lineLe := fun a b => Nat.decLe a.Line b.Line
instance : DecidableRel lineLt := fun a b => Nat.decLt a.Line b.Line
instance : IsTotal UncoveredLine lineLe := ⟨fun a b => Nat.le_total a.Line b.Line⟩
instance : IsTrans UncoveredLine lineLe := ⟨fun _ _ _ h h' => Nat.le_trans h h'⟩
instance : IsAntisymm UncoveredLine lineLt :=
  ⟨fun _ _ h h' => absurd (Nat.lt_trans h h') (Nat.lt_irrefl _)⟩

/-- Go's byte-lexicographic string `<`, as lexicographic order on the
character sequence (for valid UTF-8 the two orders agree). -/
def fileLe (a b : FileUncovered) : Prop := a.FileName.data ≤ b.FileName.data

/-- Strict file-name order; used to state sortedness + distinctness. -/
def fileLt (a b : FileUncovered) : Prop := a.FileName.data < b.FileName.data

instance : DecidableRel fileLe := fun a b =>
  inferInstanceAs (Decidable (a.FileName.data ≤ b.FileName.data))
instance : DecidableRel fileLt := fun a b =>
  inferInstanceAs (Decidable (a.FileName.data < b.FileName.data))
instance : IsTotal FileUncovered fileLe := ⟨fun a b => le_total a.FileName.data b.FileName.data⟩
instance : IsTrans FileUncovered fileLe := ⟨fun _ _ _ h h' => le_trans h h'⟩
instance : IsAntisymm FileUncovered fileLt :=
  ⟨fun _ _ h h' => absurd (lt_trans h h') (lt_irrefl _)⟩

/-- Lines 58–66 of uncovered.go: the inner map as a slice sorted by line. -/
def toSortedLines (lm : LineMap) : List UncoveredLine :=
  List.insertionSort lineLe (lm.map (fun p => ⟨p.1, p.2⟩))

/-- `GetUncoveredLines` from coverage/uncovered.go. -/
def GetUncoveredLines (profile : Profile) : List FileUncovered :=
  List.insertionSort fileLe
    ((buildFileMap profile.Blocks).map (fun p => ⟨p.1, toSortedLines p.2⟩))

end coverage

namespace renderer

/-- `contextLines` constant of the renderer package. -/
def contextLines : Nat := 3

/-- `lineGroup` of the renderer package; the Go field `end` is called
`stop` here because `end` is a Lean keyword. -/
structure lineGroup where
  start : Nat
  stop : Nat
  lines : List coverage.UncoveredLine
deriving DecidableEq

/-- The loop of `groupLines` (lines 128–142), carrying `currentGroup`. -/
def groupLinesGo (current : lineGroup) :
    List coverage.UncoveredLine → List lineGroup
  | [] => [current]
  | l :: rest =>
    if l.Line ≤ current.stop + 2 * contextLines + 1 then
      groupLinesGo ⟨current.start, l.Line, current.lines ++ [l]⟩ rest
    else
      current :: groupLinesGo ⟨l.Line, l.Line, [l]⟩ rest

/-- `groupLines` of the renderer package. -/
def groupLines : List coverage.UncoveredLine → List lineGroup
  | [] => []
  | l :: rest => groupLinesGo ⟨l.Line, l.Line, [l]⟩ rest

/-- Go `fmt.Sprintf "%5d"`: right-aligned, space padded to width 5. -/
def pad5 (n : Nat) : String :=
  String.mk (List.replicate (5 - (toString n).length) ' ') ++ toString n

/-- `renderLine`: the single line written to the writer (without the
trailing newline).  The Go variable `prefix` is called `pre` here because
`prefix` is reserved in Lean. -/
def renderLine (lineNum : Nat) (content : String) (isUncovered : Bool) : String :=
  let pre := if isUncovered then "\x1b[31m>\x1b[0m " else "  "
  let lineNumStr :=
    if isUncovered then "\x1b[31m" ++ pad5 lineNum ++ "\x1b[0m" else pad5 lineNum
  pre ++ " " ++ lineNumStr ++ " " ++ content

/-- `renderGroup`: the lines written for one group. -/
def renderGroup (allLines : List String) (group : lineGroup) : List String :=
  let uncoveredSet := group.lines.map (fun l => l.Line)
  let startLine := max 1 (group.start - contextLines)
  let endLine := min allLines.length (group.stop + contextLines)
  (List.range' startLine (endLine + 1 - startLine)).map
    (fun lineNum =>
      renderLine lineNum (allLines.getD (lineNum - 1) "") (uncoveredSet.contains lineNum))

/-- `printFileHeader`: the two lines written for a file header.  Go `len`
on a string counts bytes, hence `utf8ByteSize`. -/
def printFileHeader (fileName : String) (uncoveredCount totalLines : Nat) : List String :=
  let header := fileName ++ " (" ++ toString uncoveredCount ++ " of " ++
    toString totalLines ++ " lines uncovered)"
  ["\x1b[1m" ++ header ++ "\x1b[0m",
   String.mk (List.replicate (min 80 header.utf8ByteSize) '=')]

/-- `renderFile`: `fs` models opening and reading the named source file
(`os.Open` + `readLines`), yielding the file's lines or an error.  On
success the written lines are the header followed by the groups separated
by blank lines. -/
def renderFile (fs : String → Except String (List String))
    (fileUncovered : coverage.FileUncovered) : Except String (List String) :=
  match fs fileUncovered.FileName with
  | .error e => .error e
  | .ok lines =>
    .ok (printFileHeader fileUncovered.FileName fileUncovered.Lines.length lines.length ++
      List.intercalate [""] ((groupLines fileUncovered.Lines).map (renderGroup lines)))

/-- The loop of `Render` (lines 64–72): the Boolean says whether the
current file is the first one (`i = 0`, no separator before it).  Returns
the lines written before returning together with the error, if any. -/
def renderLoop (fs : String → Except String (List String)) :
    Bool → List coverage.FileUncovered → List String × Option String
  | _, [] => ([], none)
  | isFirst, fu :: rest =>
    let sep : List String := if isFirst then [] else [""]
    match renderFile fs fu with
    | .error e => (sep, some ("rendering " ++ fu.FileName ++ ": " ++ e))
    | .ok out =>
      let tail := renderLoop fs false rest
      (sep ++ out ++ tail.1, tail.2)

/-- `Render`: written output lines plus the returned error (if any). -/
def Render (fs : String → Except String (List String))
    (uncovered : List coverage.FileUncovered) : List String × Option String :=
  renderLoop fs true uncovered

/-- Well-formedness of a group: nonempty, `start`/`stop` are the line
numbers of its first/last member, and `start ≤ stop`. -/
def GroupWF (g : lineGroup) : Prop :=
  g.lines ≠ [] ∧
  (g.lines.map (fun l => l.Line)).head? = some g.start ∧
  (g.lines.map (fun l => l.Line)).getLast? = some g.stop ∧
  g.start ≤ g.stop

/-- Number of written lines carrying the uncovered marker (they are the
only ones beginning with the red-arrow escape sequence). -/
def displayedUncoveredCount (out : List String) : Nat :=
  out.countP (fun s => s.data.take 6 == "\x1b[31m>".data)

end renderer

namespace renderer

theorem contains_eq_decide_mem (L : List Nat) (n : Nat) :
    L.contains n = decide (n ∈ L) := by
  simp [List.elem_iff]

theorem groupLinesGo_spec (ls : List coverage.UncoveredLine) :
    ∀ g : lineGroup, GroupWF g → ls.Sorted coverage.lineLe →
    (∀ x ∈ ls, g.stop ≤ x.Line) →
    ((groupLinesGo g ls).map lineGroup.lines).flatten = g.lines ++ ls ∧
    (∀ G ∈ groupLinesGo g ls, GroupWF G) ∧
    (groupLinesGo g ls).Pairwise
      (fun a b => a.stop + 2 * contextLines + 1 < b.start ∧ a.start < b.start) ∧
    (∀ G ∈ groupLinesGo g ls, g.start ≤ G.start) := by
  induction ls with
  | nil =>
    intro g hg _ _
    refine ⟨by simp [groupLinesGo], ?_, ?_, ?_⟩
    · intro G hG
      simp [groupLinesGo] at hG
      exact hG ▸ hg
    · simp [groupLinesGo]
    · intro G hG
      simp [groupLinesGo] at hG
      simp [hG]
  | cons l rest ih =>
    intro g hg hs hb
    rw [List.sorted_cons] at hs
    obtain ⟨hl, hrest⟩ := hs
    have hstop : g.stop ≤ l.Line := hb l (by simp)
    have hlrest : ∀ x ∈ rest, l.Line ≤ x.Line := fun x hx => hl x hx
    obtain ⟨hne, hhead, hlast, hse⟩ := hg
    by_cases h : l.Line ≤ g.stop + 2 * contextLines + 1
    · have hg' : GroupWF ⟨g.start, l.Line, g.lines ++ [l]⟩ := by
        refine ⟨by simp, ?_, ?_, Nat.le_trans hse hstop⟩
        · show ((g.lines ++ [l]).map (fun l => l.Line)).head? = some g.start
          rw [List.map_append, List.head?_append, hhead]
          rfl
        · show ((g.lines ++ [l]).map (fun l => l.Line)).getLast? = some l.Line
          rw [List.map_append]
          exact List.getLast?_concat _
      obtain ⟨ih1, ih2, ih3, ih4⟩ := ih _ hg' hrest (fun x hx => hlrest x hx)
      have hout : groupLinesGo g (l :: rest) =
          groupLinesGo ⟨g.start, l.Line, g.lines ++ [l]⟩ rest := by
        simp only [groupLinesGo, if_pos h]
      rw [hout]
      exact ⟨by rw [ih1]; simp, ih2, ih3, ih4⟩
    · have hg0 : GroupWF ⟨l.Line, l.Line, [l]⟩ :=
        ⟨by simp, by simp, by simp, Nat.le_refl _⟩
      obtain ⟨ih1, ih2, ih3, ih4⟩ := ih _ hg0 hrest hlrest
      have hgap : g.stop + 2 * contextLines + 1 < l.Line := Nat.lt_of_not_le h
      have hout : groupLinesGo g (l :: rest) =
          g :: groupLinesGo ⟨l.Line, l.Line, [l]⟩ rest := by
        simp only [groupLinesGo, if_neg h]
      rw [hout]
      refine ⟨?_, ?_, ?_, ?_⟩
      · rw [List.map_cons, List.flatten_cons, ih1]
        simp
      · intro G hG
        rcases List.mem_cons.mp hG with hG | hG
        · exact hG ▸ ⟨hne, hhead, hlast, hse⟩
        · exact ih2 G hG
      · rw [List.pairwise_cons]
        refine ⟨?_, ih3⟩
        intro G hG
        have hstart : l.Line ≤ G.start := by simpa using ih4 G hG
        exact ⟨by omega, by omega⟩
      · intro G hG
        rcases List.mem_cons.mp hG with hG | hG
        · exact hG ▸ Nat.le_refl _
        · have h1 : l.Line ≤ G.start := by simpa using ih4 G hG
          omega

theorem utf8Go_append (a b : List Char) :
    String.utf8ByteSize.go (a ++ b) =
      String.utf8ByteSize.go a + String.utf8ByteSize.go b := by
  induction a with
  | nil => simp [String.utf8ByteSize.go]
  | cons c cs ih =>
    simp [String.utf8ByteSize.go, ih]
    omega

theorem utf8ByteSize_append (a b : String) :
    (a ++ b).utf8ByteSize = a.utf8ByteSize + b.utf8ByteSize := by
  rw [show (a ++ b).utf8ByteSize = String.utf8ByteSize.go (a ++ b).data from rfl,
    String.data_append, utf8Go_append]
  rfl

end renderer

/-- C3: `groupLines` merges a subsequent uncovered line into the current
group iff its line number is at most `currentGroup.end + 2*contextLines + 1
= end + 7`; two consecutive uncovered lines at distance exactly 7 form one
group, at distance 8 two groups. -/
theorem groupLines_merge_threshold :
    (∀ (g : renderer.lineGroup) (l : coverage.UncoveredLine)
        (rest : List coverage.UncoveredLine),
      renderer.groupLinesGo g (l :: rest) =
        if l.Line ≤ g.stop + 2 * renderer.contextLines + 1 then
          renderer.groupLinesGo ⟨g.start, l.Line, g.lines ++ [l]⟩ rest
        else g :: renderer.groupLinesGo ⟨l.Line, l.Line, [l]⟩ rest) ∧
    2 * renderer.contextLines + 1 = 7 ∧
    (∀ a c₁ c₂ : Nat,
      (renderer.groupLines [⟨a, c₁⟩, ⟨a + 7, c₂⟩]).length = 1) ∧
    (∀ a c₁ c₂ : Nat,
      (renderer.groupLines [⟨a, c₁⟩, ⟨a + 8, c₂⟩]).length = 2) := by
  refine ⟨fun g l rest => rfl, by decide, ?_, ?_⟩
  · intro a c₁ c₂
    simp [renderer.groupLines, renderer.groupLinesGo, renderer.contextLines]
  · intro a c₁ c₂
    simp [renderer.groupLines, renderer.groupLinesGo, renderer.contextLines]

/-- C6: for a non-empty sorted uncovered-line list, `groupLines` yields a
partition: the groups' lines concatenated give back the input; every group
is nonempty with `start`/`stop` the line numbers of its first/last member
and `start ≤ stop`; groups have strictly increasing starts and successive
groups are separated by a gap exceeding `2*contextLines + 1 = 7`. -/
theorem groupLines_partition (ls : List coverage.UncoveredLine)
    (hne : ls ≠ []) (hs : ls.Sorted coverage.lineLe) :
    ((renderer.groupLines ls).map renderer.lineGroup.lines).flatten = ls ∧
    renderer.groupLines ls ≠ [] ∧
    (∀ G ∈ renderer.groupLines ls, renderer.GroupWF G) ∧
    (renderer.groupLines ls).Pairwise
      (fun a b => a.stop + 2 * renderer.contextLines + 1 < b.start ∧
        a.start < b.start) := by
  match ls, hne with
  | l :: rest, _ =>
    rw [List.sorted_cons] at hs
    obtain ⟨hl, hrest⟩ := hs
    have hg0 : renderer.GroupWF ⟨l.Line, l.Line, [l]⟩ :=
      ⟨by simp, by simp, by simp, Nat.le_refl _⟩
    obtain ⟨h1, h2, h3, _⟩ :=
      renderer.groupLinesGo_spec rest ⟨l.Line, l.Line, [l]⟩ hg0 hrest
        (fun x hx => hl x hx)
    have hout : renderer.groupLines (l :: rest) =
        renderer.groupLinesGo ⟨l.Line, l.Line, [l]⟩ rest := rfl
    rw [hout]
    refine ⟨by rw [h1]; rfl, ?_, h2, h3⟩
    intro hempty
    rw [hempty] at h1
    simp at h1

/-- Witness for C6 at a concrete sorted list. -/
theorem groupLines_partition_witness :
    (([⟨1, 0⟩, ⟨2, 0⟩, ⟨20, 0⟩] : List coverage.UncoveredLine) ≠ []) ∧
    ([⟨1, 0⟩, ⟨2, 0⟩, ⟨20, 0⟩] : List coverage.UncoveredLine).Sorted
      coverage.lineLe ∧
    (((renderer.groupLines [⟨1, 0⟩, ⟨2, 0⟩, ⟨20, 0⟩]).map
        renderer.lineGroup.lines).flatten = [⟨1, 0⟩, ⟨2, 0⟩, ⟨20, 0⟩] ∧
      renderer.groupLines [⟨1, 0⟩, ⟨2, 0⟩, ⟨20, 0⟩] ≠ [] ∧
      (∀ G ∈ renderer.groupLines [⟨1, 0⟩, ⟨2, 0⟩, ⟨20, 0⟩], renderer.GroupWF G) ∧
      (renderer.groupLines [⟨1, 0⟩, ⟨2, 0⟩, ⟨20, 0⟩]).Pairwise
        (fun a b => a.stop + 2 * renderer.contextLines + 1 < b.start ∧
          a.start < b.start)) :=
  ⟨by decide, by decide, groupLines_partition _ (by decide) (by decide)⟩

/-- C4: `renderGroup` writes exactly the source lines numbered
`max 1 (start−C)` through `min totalLineCount (stop+C)` in increasing
order, marked uncovered iff the number is in the group's uncovered set;
clipping means no context above line 1 for a group starting at 1, none
below the last line for a group ending there, and a line number beyond
the file length is never in the rendered range. -/
theorem renderGroup_window (allLines : List String) (g : renderer.lineGroup) :
    renderer.renderGroup allLines g =
      (List.range' (max 1 (g.start - renderer.contextLines))
        (min allLines.length (g.stop + renderer.contextLines) + 1 -
          max 1 (g.start - renderer.contextLines))).map
        (fun n => renderer.renderLine n (allLines.getD (n - 1) "")
          (decide (n ∈ g.lines.map (fun l => l.Line)))) ∧
    (renderer.renderGroup allLines g).length =
      min allLines.length (g.stop + renderer.contextLines) + 1 -
        max 1 (g.start - renderer.contextLines) ∧
    (g.start = 1 → max 1 (g.start - renderer.contextLines) = 1) ∧
    (g.stop = allLines.length →
      min allLines.length (g.stop + renderer.contextLines) = allLines.length) ∧
    (∀ n, allLines.length < n →
      n ∉ List.range' (max 1 (g.start - renderer.contextLines))
        (min allLines.length (g.stop + renderer.contextLines) + 1 -
          max 1 (g.start - renderer.contextLines))) := by
  have hmain : renderer.renderGroup allLines g =
      (List.range' (max 1 (g.start - renderer.contextLines))
        (min allLines.length (g.stop + renderer.contextLines) + 1 -
          max 1 (g.start - renderer.contextLines))).map
        (fun n => renderer.renderLine n (allLines.getD (n - 1) "")
          (decide (n ∈ g.lines.map (fun l => l.Line)))) := by
    show (List.range' (max 1 (g.start - renderer.contextLines))
        (min allLines.length (g.stop + renderer.contextLines) + 1 -
          max 1 (g.start - renderer.contextLines))).map _ = _
    simp only [renderer.contains_eq_decide_mem]
  refine ⟨hmain, by rw [hmain]; simp, fun h => by omega, fun h => by omega, ?_⟩
  intro n hn
  rw [List.mem_range'_1]
  omega

/-- Witness for C4's conditional clauses at a concrete group. -/
theorem renderGroup_window_witness :
    (renderer.lineGroup.mk 1 2 [⟨1, 0⟩, ⟨2, 0⟩]).start = 1 ∧
    max 1 ((renderer.lineGroup.mk 1 2 [⟨1, 0⟩, ⟨2, 0⟩]).start -
      renderer.contextLines) = 1 ∧
    min (["a", "b"] : List String).length
      ((renderer.lineGroup.mk 1 2 [⟨1, 0⟩, ⟨2, 0⟩]).stop +
        renderer.contextLines) = (["a", "b"] : List String).length :=
  ⟨rfl, (renderGroup_window ["a", "b"] (renderer.lineGroup.mk 1 2 [⟨1, 0⟩, ⟨2, 0⟩])).2.2.1 rfl,
    (renderGroup_window ["a", "b"] (renderer.lineGroup.mk 1 2 [⟨1, 0⟩, ⟨2, 0⟩])).2.2.2.1 rfl⟩

/-- C7: `printFileHeader` writes the header text
`"<fileName> (<n> of <m> lines uncovered)"` (in bold) followed by a rule
of `=` characters of length `min 80 (byte length of the header)`; with a
21-byte name and counts 29 of 59 the rule has 48 characters. -/
theorem printFileHeader_format (fileName : String) (n m : Nat) :
    renderer.printFileHeader fileName n m =
      ["\x1b[1m" ++ (fileName ++ " (" ++ toString n ++ " of " ++ toString m ++
          " lines uncovered)") ++ "\x1b[0m",
        String.mk (List.replicate (min 80 (fileName ++ " (" ++ toString n ++
          " of " ++ toString m ++ " lines uncovered)").utf8ByteSize) '=')] ∧
    (fileName.utf8ByteSize = 21 →
      ((renderer.printFileHeader fileName 29 59).getD 1 "").length = 48) := by
  constructor
  · rfl
  · intro h
    have hlen : (fileName ++ " (" ++ toString 29 ++ " of " ++ toString 59 ++
        " lines uncovered)").utf8ByteSize = 48 := by
      simp only [renderer.utf8ByteSize_append, h]
      decide
    show (String.mk (List.replicate (min 80 (fileName ++ " (" ++ toString 29 ++
      " of " ++ toString 59 ++ " lines uncovered)").utf8ByteSize) '=')).length = 48
    rw [hlen]
    rfl

theorem renderLoop_failure (fs : String → Except String (List String))
    (fu : coverage.FileUncovered) (post : List coverage.FileUncovered)
    (e : String) (hfail : fs fu.FileName = .error e) :
    ∀ (b : Bool) (pre : List coverage.FileUncovered),
      (∀ g ∈ pre, (fs g.FileName).isOk = true) →
      renderer.renderLoop fs b (pre ++ fu :: post) =
        ((renderer.renderLoop fs b pre).1 ++
            (if b = true ∧ pre = [] then [] else [""]),
          some ("rendering " ++ fu.FileName ++ ": " ++ e)) := by
  intro b pre
  induction pre generalizing b with
  | nil =>
    intro _
    simp only [List.nil_append, renderer.renderLoop, renderer.renderFile, hfail]
    cases b <;> simp [renderer.renderLoop]
  | cons p pre' ih =>
    intro hpre
    have hp : (fs p.FileName).isOk = true := hpre p (by simp)
    obtain ⟨v, hv⟩ : ∃ v, fs p.FileName = .ok v := by
      cases hfs : fs p.FileName with
      | ok v => exact ⟨v, rfl⟩
      | error err =>
        rw [hfs] at hp
        simp [Except.isOk, Except.toBool] at hp
    have hpre' : ∀ g ∈ pre', (fs g.FileName).isOk = true :=
      fun g hg => hpre g (by simp [hg])
    have hih := ih false hpre'
    simp only [List.cons_append, renderer.renderLoop, renderer.renderFile, hv,
      List.append_eq]
    rw [hih]
    simp [List.append_assoc]

/-- C8: if the source file of some `FileUncovered` cannot be read (and the
files before it could), `Render` fails the whole invocation with the error
wrapped with that file name, and the lines written before the failure are
exactly those of the preceding files (plus the one inter-file blank
separator): neither the failing file's header nor any of its lines is
written. -/
theorem render_failure_atomic (fs : String → Except String (List String))
    (pre post : List coverage.FileUncovered) (fu : coverage.FileUncovered)
    (e : String) (hpre : ∀ g ∈ pre, (fs g.FileName).isOk = true)
    (hfail : fs fu.FileName = .error e) :
    renderer.Render fs (pre ++ fu :: post) =
      ((renderer.Render fs pre).1 ++ (if pre = [] then [] else [""]),
        some ("rendering " ++ fu.FileName ++ ": " ++ e)) := by
  have h := renderLoop_failure fs fu post e hfail true pre hpre
  simpa [renderer.Render] using h

/-- Witness for C8: one readable file, then an unreadable one. -/
theorem render_failure_atomic_witness :
    (∀ g ∈ [(⟨"f", [⟨1, 0⟩]⟩ : coverage.FileUncovered)],
      (((fun s => if s = "f" then Except.ok ["a", "b"]
        else Except.error "boom") : String → Except String (List String))
          g.FileName).isOk = true) ∧
    ((fun s => if s = "f" then Except.ok ["a", "b"]
        else Except.error "boom") : String → Except String (List String))
      (coverage.FileUncovered.mk "g" [⟨1, 0⟩]).FileName = .error "boom" ∧
    renderer.Render
        (fun s => if s = "f" then Except.ok ["a", "b"] else Except.error "boom")
        ([⟨"f", [⟨1, 0⟩]⟩] ++ ⟨"g", [⟨1, 0⟩]⟩ :: []) =
      ((renderer.Render
          (fun s => if s = "f" then Except.ok ["a", "b"] else Except.error "boom")
          [⟨"f", [⟨1, 0⟩]⟩]).1 ++
          (if ([(⟨"f", [⟨1, 0⟩]⟩ : coverage.FileUncovered)] : List coverage.FileUncovered) = [] then [] else [""]),
        some ("rendering " ++ "g" ++ ": " ++ "boom")) :=
  ⟨by decide, rfl,
    render_failure_atomic _ [⟨"f", [⟨1, 0⟩]⟩] [] ⟨"g", [⟨1, 0⟩]⟩ "boom"
      (by decide) rfl⟩

/-- C10 (implicit): the uncovered count in a file's header is always the
number of extracted `UncoveredLine`s for that file, even when some of them
lie beyond the file's actual length; in the concrete stale-data scenario
the header count (1) exceeds the number of lines displayed as uncovered
(0). -/
theorem renderFile_header_count (fs : String → Except String (List String))
    (fu : coverage.FileUncovered) (ls : List String)
    (h : fs fu.FileName = .ok ls) :
    (∃ body, renderer.renderFile fs fu =
        .ok (renderer.printFileHeader fu.FileName fu.Lines.length ls.length ++
          body)) ∧
    (renderer.displayedUncoveredCount
        ((renderer.renderFile
          (fun s => if s = "f" then .ok ["a", "b"] else .error "boom")
          ⟨"f", [⟨5, 0⟩]⟩).toOption.getD []) = 0 ∧
      (coverage.FileUncovered.mk "f" [⟨5, 0⟩]).Lines.length = 1) := by
  constructor
  · refine ⟨List.intercalate [""]
      ((renderer.groupLines fu.Lines).map (renderer.renderGroup ls)), ?_⟩
    simp only [renderer.renderFile, h]
  · exact ⟨by decide, by decide⟩

/-- Witness for C10 at a concrete file system and file. -/
theorem renderFile_header_count_witness :
    (((fun s => if s = "f" then Except.ok ["a", "b"]
        else Except.error "boom") : String → Except String (List String))
      (coverage.FileUncovered.mk "f" [⟨5, 0⟩]).FileName = .ok ["a", "b"]) ∧
    (∃ body, renderer.renderFile
        (fun s => if s = "f" then .ok ["a", "b"] else .error "boom")
        ⟨"f", [⟨5, 0⟩]⟩ =
      .ok (renderer.printFileHeader "f" 1 2 ++ body)) :=
  ⟨rfl,
    (renderFile_header_count
      (fun s => if s = "f" then .ok ["a", "b"] else .error "boom")
      ⟨"f", [⟨5, 0⟩]⟩ ["a", "b"] rfl).1⟩

namespace coverage

theorem alookup_eq_none {α β : Type} [DecidableEq α] (l : List (α × β)) (k : α) :
    alookup l k = none ↔ k ∉ akeys l := by
  induction l with
  | nil => simp [alookup, akeys]
  | cons p rest ih =>
    rcases p with ⟨a, v⟩
    by_cases h : a = k
    · subst h
      simp [alookup, akeys]
    · have h' : ¬(k = a) := fun hx => h hx.symm
      simp [alookup, akeys, h, h', ih]

theorem alookup_append {α β : Type} [DecidableEq α] (a b : List (α × β)) (k : α) :
    alookup (a ++ b) k = (alookup a k).or (alookup b k) := by
  induction a with
  | nil => simp [alookup]
  | cons p rest ih =>
    by_cases h : p.1 = k <;> simp [alookup, h, ih]

theorem mem_of_alookup {α β : Type} [DecidableEq α] {l : List (α × β)} {k : α}
    {v : β} (h : alookup l k = some v) : (k, v) ∈ l := by
  induction l with
  | nil => simp [alookup] at h
  | cons p rest ih =>
    rcases p with ⟨a, w⟩
    by_cases hp : a = k
    · simp [alookup, hp] at h
      subst hp
      subst h
      exact List.mem_cons_self _ _
    · simp [alookup, hp] at h
      exact List.mem_cons_of_mem _ (ih h)

theorem alookup_of_mem {α β : Type} [DecidableEq α] {l : List (α × β)} {k : α}
    {v : β} (hnd : (akeys l).Nodup) (h : (k, v) ∈ l) : alookup l k = some v := by
  induction l with
  | nil => simp at h
  | cons p rest ih =>
    rw [akeys, List.map_cons, List.nodup_cons] at hnd
    rcases List.mem_cons.mp h with h | h
    · rw [← h, alookup, if_pos rfl]
    · have hk : k ∈ akeys rest := by
        rw [akeys, List.mem_map]
        exact ⟨(k, v), h, rfl⟩
      have hp : p.1 ≠ k := fun he => hnd.1 (he ▸ hk)
      rw [alookup, if_neg hp]
      exact ih hnd.2 h

theorem alookup_isSome_iff {α β : Type} [DecidableEq α] (l : List (α × β)) (k : α) :
    (alookup l k).isSome = true ↔ k ∈ akeys l := by
  cases halo : alookup l k with
  | none =>
    have hnm := (alookup_eq_none l k).mp halo
    simp [hnm]
  | some v =>
    have hm : k ∈ akeys l := by
      rw [akeys, List.mem_map]
      exact ⟨(k, v), mem_of_alookup halo, rfl⟩
    simp [hm]

theorem alookup_aset {α β : Type} [DecidableEq α] (l : List (α × β)) (k : α)
    (F : β → β) (g : α) :
    alookup (aset l k F) g =
      if g = k then (alookup l k).map F else alookup l g := by
  induction l with
  | nil => simp [aset, alookup]
  | cons p rest ih =>
    rcases p with ⟨a, v⟩
    simp only [aset, List.map_cons] at ih ⊢
    by_cases hak : a = k <;> by_cases hag : a = g
    · subst hak
      subst hag
      simp [alookup]
    · subst hak
      have hga : ¬(g = a) := fun h => hag h.symm
      simp [alookup, hag, hga, ih]
    · subst hag
      have hga : ¬(a = k) := hak
      simp [alookup, hga]
    · simp [alookup, hak, hag, ih]

theorem akeys_aset {α β : Type} [DecidableEq α] (l : List (α × β)) (k : α)
    (F : β → β) : akeys (aset l k F) = akeys l := by
  unfold akeys aset
  rw [List.map_map]
  congr 1
  funext p
  by_cases h : p.1 = k <;> simp [h]

theorem akeys_append {α β : Type} (a b : List (α × β)) :
    akeys (a ++ b) = akeys a ++ akeys b := by
  simp [akeys]

theorem alookup_updateLine (lm : LineMap) (n c k : Nat) :
    alookup (updateLine lm n c) k =
      if k = n then some (mergeCol (alookup lm n) c) else alookup lm k := by
  unfold updateLine
  cases hl : alookup lm n with
  | none =>
    rw [alookup_append]
    by_cases hk : k = n
    · subst hk
      simp [alookup, hl, mergeCol]
    · have hnk : ¬(n = k) := fun h => hk h.symm
      simp [alookup, hk, hnk]
  | some x =>
    dsimp only
    by_cases hc : c < x
    · rw [if_pos hc]
      show alookup (aset lm n (fun _ => c)) k = _
      rw [alookup_aset]
      by_cases hk : k = n
      · subst hk
        simp [hl, mergeCol]
        omega
      · simp [hk]
    · rw [if_neg hc]
      by_cases hk : k = n
      · subst hk
        simp [hl, mergeCol]
        omega
      · simp [hk]

theorem akeys_updateLine (lm : LineMap) (n c : Nat) :
    akeys (updateLine lm n c) =
      if (alookup lm n).isSome = true then akeys lm else akeys lm ++ [n] := by
  unfold updateLine
  cases hl : alookup lm n with
  | none => simp [akeys_append, akeys]
  | some x =>
    by_cases hc : c < x <;>
      simp [hc, setCol, akeys_aset]

theorem nodup_akeys_updateLine (lm : LineMap) (n c : Nat)
    (h : (akeys lm).Nodup) : (akeys (updateLine lm n c)).Nodup := by
  rw [akeys_updateLine]
  cases hl : alookup lm n with
  | some x => simp [h]
  | none =>
    have hn : n ∉ akeys lm := (alookup_eq_none lm n).mp hl
    simp only [Option.isSome_none, Bool.false_eq_true, if_false]
    rw [List.nodup_append]
    refine ⟨h, List.nodup_singleton _, ?_⟩
    intro a ha hb
    rw [List.mem_singleton] at hb
    exact hn (hb ▸ ha)

theorem alookup_ensureFile (fm : FileMap) (f g : String) :
    alookup (ensureFile fm f) g =
      if g = f then some ((alookup fm f).getD []) else alookup fm g := by
  unfold ensureFile
  cases hl : alookup fm f with
  | none =>
    rw [alookup_append]
    by_cases hg : g = f
    · subst hg
      simp [alookup, hl]
    · have hfg : ¬(f = g) := fun h => hg h.symm
      simp [alookup, hg, hfg]
  | some lm =>
    by_cases hg : g = f
    · subst hg
      simp [hl]
    · simp [hg]

theorem lookupFileLine_ensureFile (fm : FileMap) (f g : String) (k : Nat) :
    lookupFileLine (ensureFile fm f) g k = lookupFileLine fm g k := by
  unfold lookupFileLine
  rw [alookup_ensureFile]
  by_cases hg : g = f
  · subst hg
    cases hl : alookup fm g with
    | none => simp [alookup]
    | some lm => simp
  · simp [hg]

theorem isSome_alookup_ensureFile (fm : FileMap) (f : String) :
    (alookup (ensureFile fm f) f).isSome = true := by
  rw [alookup_ensureFile]
  simp

theorem akeys_updateFileLine (fm : FileMap) (f : String) (n c : Nat) :
    akeys (updateFileLine fm f n c) = akeys fm :=
  akeys_aset fm f _

theorem lookupFileLine_updateFileLine (fm : FileMap) (f : String) (n c : Nat)
    (g : String) (k : Nat) :
    lookupFileLine (updateFileLine fm f n c) g k =
      if g = f ∧ k = n ∧ f ∈ akeys fm then
        some (mergeCol (lookupFileLine fm f n) c)
      else lookupFileLine fm g k := by
  unfold lookupFileLine updateFileLine
  rw [alookup_aset]
  by_cases hg : g = f
  · subst hg
    cases hl : alookup fm g with
    | none =>
      have hnm : g ∉ akeys fm := (alookup_eq_none _ _).mp hl
      simp [hnm]
    | some lm =>
      have hmem : g ∈ akeys fm := (alookup_isSome_iff _ _).mp (by simp [hl])
      by_cases hk : k = n <;> simp [hk, hmem, alookup_updateLine]
  · simp [hg]

theorem lookupFileLine_foldl_update (b : Block) :
    ∀ L : List Nat, L.Nodup → ∀ fm : FileMap, b.FileName ∈ akeys fm →
    ∀ (g : String) (k : Nat),
    lookupFileLine
        (L.foldl (fun m j => updateFileLine m b.FileName j (colFor b j)) fm) g k =
      if g = b.FileName ∧ k ∈ L then
        some (mergeCol (lookupFileLine fm g k) (colFor b k))
      else lookupFileLine fm g k := by
  intro L
  induction L with
  | nil =>
    intro _ fm _ g k
    simp
  | cons m L' ih =>
    intro hnd fm hmem g k
    rw [List.nodup_cons] at hnd
    obtain ⟨hm, hnd'⟩ := hnd
    rw [List.foldl_cons]
    have hmem₁ : b.FileName ∈
        akeys (updateFileLine fm b.FileName m (colFor b m)) := by
      rw [akeys_updateFileLine]
      exact hmem
    have h1 := ih hnd' _ hmem₁ g k
    rw [h1]
    have h2 := lookupFileLine_updateFileLine fm b.FileName m (colFor b m) g k
    by_cases hg : g = b.FileName
    · subst hg
      by_cases hkm : k = m
      · subst hkm
        simp [hm, h2, hmem]
      · by_cases hkL : k ∈ L'
        · simp [hkL, hkm, h2]
        · simp [hkL, hkm, h2]
    · simp [hg, h2]

theorem lookupFileLine_processBlock (fm : FileMap) (b : Block) (g : String)
    (k : Nat) :
    lookupFileLine (processBlock fm b) g k =
      if b.IsCovered = false ∧ b.FileName = g ∧ k ∈ blockLines b then
        some (mergeCol (lookupFileLine fm g k) (colFor b k))
      else lookupFileLine fm g k := by
  unfold processBlock
  cases hcov : b.IsCovered with
  | true => simp [hcov]
  | false =>
    simp only [hcov, Bool.false_eq_true, if_false]
    have hnodup : (blockLines b).Nodup := List.nodup_range' _ _
    have hmem₀ : b.FileName ∈ akeys (ensureFile fm b.FileName) :=
      (alookup_isSome_iff _ _).mp (isSome_alookup_ensureFile fm b.FileName)
    rw [lookupFileLine_foldl_update b (blockLines b) hnodup _ hmem₀ g k]
    simp only [lookupFileLine_ensureFile]
    by_cases hg : b.FileName = g
    · by_cases hk : k ∈ blockLines b
      · rw [if_pos ⟨hg.symm, hk⟩]
        rw [if_pos (by exact ⟨trivial, hg, hk⟩)]
      · rw [if_neg (fun h => hk h.2), if_neg (fun h => hk h.2.2)]
    · rw [if_neg (fun h => hg h.1.symm), if_neg (fun h => hg h.2.1)]

theorem lookupFileLine_foldl_blocks :
    ∀ (bs : List Block) (fm : FileMap) (g : String) (k : Nat),
    lookupFileLine (bs.foldl processBlock fm) g k =
      foldMerge (lookupFileLine fm g k) (candCols bs g k) := by
  intro bs
  induction bs with
  | nil =>
    intro fm g k
    rfl
  | cons b bs' ih =>
    intro fm g k
    rw [List.foldl_cons, ih]
    by_cases hP : b.IsCovered = false ∧ b.FileName = g ∧ k ∈ blockLines b
    · rw [lookupFileLine_processBlock, if_pos hP]
      simp only [candCols, List.filterMap_cons, if_pos hP]
      rfl
    · rw [lookupFileLine_processBlock, if_neg hP]
      simp only [candCols, List.filterMap_cons, if_neg hP]

theorem lookupFileLine_buildFileMap (bs : List Block) (g : String) (k : Nat) :
    lookupFileLine (buildFileMap bs) g k = foldMerge none (candCols bs g k) := by
  unfold buildFileMap
  rw [lookupFileLine_foldl_blocks]
  rfl

theorem foldMerge_some (cs : List Nat) :
    ∀ x : Nat, ∃ m : Nat, foldMerge (some x) cs = some m ∧ (m = x ∨ m ∈ cs) ∧
      m ≤ x ∧ ∀ c ∈ cs, m ≤ c := by
  induction cs with
  | nil =>
    intro x
    exact ⟨x, rfl, Or.inl rfl, Nat.le_refl _, by simp⟩
  | cons c cs' ih =>
    intro x
    obtain ⟨m, h1, h2, h3, h4⟩ := ih (min x c)
    refine ⟨m, ?_, ?_, ?_, ?_⟩
    · rw [show foldMerge (some x) (c :: cs') = foldMerge (some (min x c)) cs'
        from rfl, h1]
    · rcases h2 with h | h
      · by_cases hxc : x ≤ c
        · exact Or.inl (by rw [h]; omega)
        · refine Or.inr ?_
          have hmc : m = c := by rw [h]; omega
          rw [hmc]
          exact List.mem_cons_self _ _
      · exact Or.inr (List.mem_cons_of_mem _ h)
    · exact Nat.le_trans h3 (Nat.min_le_left _ _)
    · intro d hd
      rcases List.mem_cons.mp hd with h | h
      · exact h ▸ Nat.le_trans h3 (Nat.min_le_right _ _)
      · exact h4 d h

theorem foldMerge_none_spec (cs : List Nat) (m : Nat)
    (h : foldMerge none cs = some m) : m ∈ cs ∧ ∀ c ∈ cs, m ≤ c := by
  cases cs with
  | nil => simp [foldMerge] at h
  | cons c cs' =>
    rw [show foldMerge none (c :: cs') = foldMerge (some c) cs' from rfl] at h
    obtain ⟨m', h1, h2, h3, h4⟩ := foldMerge_some cs' c
    rw [h1] at h
    obtain rfl : m' = m := by
      cases h
      rfl
    constructor
    · rcases h2 with h | h
      · exact h ▸ List.mem_cons_self _ _
      · exact List.mem_cons_of_mem _ h
    · intro d hd
      rcases List.mem_cons.mp hd with h | h
      · exact h ▸ h3
      · exact h4 d h

theorem foldMerge_none_eq_none_iff (cs : List Nat) :
    foldMerge none cs = none ↔ cs = [] := by
  cases cs with
  | nil => simp [foldMerge]
  | cons c cs' =>
    rw [show foldMerge none (c :: cs') = foldMerge (some c) cs' from rfl]
    obtain ⟨m, h1, _⟩ := foldMerge_some cs' c
    simp [h1]

theorem akeys_processBlock (fm : FileMap) (b : Block) :
    akeys (processBlock fm b) =
      if b.IsCovered = false ∧ b.FileName ∉ akeys fm then
        akeys fm ++ [b.FileName]
      else akeys fm := by
  unfold processBlock
  cases hcov : b.IsCovered with
  | true =>
    rw [if_pos rfl, if_neg (fun h => by simp [hcov] at h)]
  | false =>
    simp only [Bool.false_eq_true, if_false]
    have hfold : ∀ (L : List Nat) (m : FileMap),
        akeys (L.foldl (fun m j => updateFileLine m b.FileName j (colFor b j)) m) =
          akeys m := by
      intro L
      induction L with
      | nil => intro m; rfl
      | cons j L' ih =>
        intro m
        rw [List.foldl_cons, ih, akeys_updateFileLine]
    rw [hfold]
    unfold ensureFile
    cases he : alookup fm b.FileName with
    | none =>
      have hnm : b.FileName ∉ akeys fm := (alookup_eq_none _ _).mp he
      rw [if_pos (by exact ⟨trivial, hnm⟩), akeys_append]
      rfl
    | some lm =>
      have hmem : b.FileName ∈ akeys fm :=
        (alookup_isSome_iff _ _).mp (by simp [he])
      rw [if_neg (fun h => h.2 hmem)]

theorem mem_akeys_foldl_blocks :
    ∀ (bs : List Block) (fm : FileMap) (f : String),
    f ∈ akeys (bs.foldl processBlock fm) ↔
      f ∈ akeys fm ∨ ∃ b ∈ bs, b.IsCovered = false ∧ b.FileName = f := by
  intro bs
  induction bs with
  | nil =>
    intro fm f
    simp
  | cons b bs' ih =>
    intro fm f
    rw [List.foldl_cons, ih]
    have hpb : f ∈ akeys (processBlock fm b) ↔
        f ∈ akeys fm ∨ (b.IsCovered = false ∧ b.FileName = f) := by
      rw [akeys_processBlock]
      by_cases hc : b.IsCovered = false ∧ b.FileName ∉ akeys fm
      · rw [if_pos hc, List.mem_append, List.mem_singleton]
        constructor
        · rintro (h | h)
          · exact Or.inl h
          · exact Or.inr ⟨hc.1, h.symm⟩
        · rintro (h | ⟨_, h⟩)
          · exact Or.inl h
          · exact Or.inr h.symm
      · rw [if_neg hc]
        constructor
        · exact Or.inl
        · rintro (h | ⟨hcov, hname⟩)
          · exact h
          · by_cases hmem : b.FileName ∈ akeys fm
            · exact hname ▸ hmem
            · exact absurd ⟨hcov, hmem⟩ hc
    rw [hpb]
    constructor
    · rintro ((h | ⟨hcov, hname⟩) | ⟨b', hb', hP⟩)
      · exact Or.inl h
      · exact Or.inr ⟨b, List.mem_cons_self _ _, hcov, hname⟩
      · exact Or.inr ⟨b', List.mem_cons_of_mem _ hb', hP⟩
    · rintro (h | ⟨b', hb', hP⟩)
      · exact Or.inl (Or.inl h)
      · rcases List.mem_cons.mp hb' with rfl | hb'
        · exact Or.inl (Or.inr hP)
        · exact Or.inr ⟨b', hb', hP⟩

theorem mem_akeys_buildFileMap (bs : List Block) (f : String) :
    f ∈ akeys (buildFileMap bs) ↔
      ∃ b ∈ bs, b.IsCovered = false ∧ b.FileName = f := by
  unfold buildFileMap
  rw [mem_akeys_foldl_blocks]
  simp [akeys]

theorem nodup_akeys_buildFileMap (bs : List Block) :
    (akeys (buildFileMap bs)).Nodup := by
  unfold buildFileMap
  have key : ∀ (bs' : List Block) (fm : FileMap), (akeys fm).Nodup →
      (akeys (bs'.foldl processBlock fm)).Nodup := by
    intro bs'
    induction bs' with
    | nil => intro fm h; exact h
    | cons b rest ih =>
      intro fm h
      rw [List.foldl_cons]
      apply ih
      rw [akeys_processBlock]
      by_cases hc : b.IsCovered = false ∧ b.FileName ∉ akeys fm
      · rw [if_pos hc, List.nodup_append]
        exact ⟨h, List.nodup_singleton _,
          fun a ha hb => hc.2 ((List.mem_singleton.mp hb) ▸ ha)⟩
      · rw [if_neg hc]
        exact h
  exact key bs [] (by simp [akeys])

theorem nodup_lineKeys_buildFileMap (bs : List Block) :
    ∀ q ∈ buildFileMap bs, (akeys q.2).Nodup := by
  unfold buildFileMap
  have step : ∀ (b : Block) (fm : FileMap), (∀ q ∈ fm, (akeys q.2).Nodup) →
      ∀ q ∈ processBlock fm b, (akeys q.2).Nodup := by
    intro b fm h
    unfold processBlock
    cases hcov : b.IsCovered with
    | true => exact h
    | false =>
      simp only [Bool.false_eq_true, if_false]
      have hens : ∀ q ∈ ensureFile fm b.FileName, (akeys q.2).Nodup := by
        unfold ensureFile
        cases alookup fm b.FileName with
        | none =>
          intro q hq
          rcases List.mem_append.mp hq with hq | hq
          · exact h q hq
          · rw [List.mem_singleton] at hq
            subst hq
            simp [akeys]
        | some _ => exact h
      have hfold : ∀ (L : List Nat) (m : FileMap),
          (∀ q ∈ m, (akeys q.2).Nodup) →
          ∀ q ∈ L.foldl (fun m j => updateFileLine m b.FileName j (colFor b j)) m,
            (akeys q.2).Nodup := by
        intro L
        induction L with
        | nil => intro m hm; exact hm
        | cons j L' ih =>
          intro m hm
          rw [List.foldl_cons]
          apply ih
          intro q hq
          unfold updateFileLine aset at hq
          rw [List.mem_map] at hq
          obtain ⟨p, hp, rfl⟩ := hq
          by_cases hpf : p.1 = b.FileName
          · rw [if_pos hpf]
            exact nodup_akeys_updateLine _ _ _ (hm p hp)
          · rw [if_neg hpf]
            exact hm p hp
      exact hfold _ _ hens
  have key : ∀ (bs' : List Block) (fm : FileMap),
      (∀ q ∈ fm, (akeys q.2).Nodup) →
      ∀ q ∈ bs'.foldl processBlock fm, (akeys q.2).Nodup := by
    intro bs'
    induction bs' with
    | nil => intro fm h; exact h
    | cons b rest ih =>
      intro fm h
      rw [List.foldl_cons]
      exact ih _ (step b fm h)
  exact key bs [] (by simp)

theorem alookup_entry {α β : Type} [DecidableEq α] {fm : List (α × β)}
    (hnd : (akeys fm).Nodup) {q : α × β} (hq : q ∈ fm) :
    alookup fm q.1 = some q.2 :=
  alookup_of_mem hnd hq

theorem string_data_inj {a b : String} (h : a.data = b.data) : a = b := by
  cases a
  cases b
  cases h
  rfl

theorem mem_getUncoveredLines (p : Profile) (fu : FileUncovered) :
    fu ∈ GetUncoveredLines p ↔
      ∃ q ∈ buildFileMap p.Blocks, fu = ⟨q.1, toSortedLines q.2⟩ := by
  unfold GetUncoveredLines
  rw [(List.perm_insertionSort fileLe _).mem_iff, List.mem_map]
  constructor
  · rintro ⟨q, hq, rfl⟩
    exact ⟨q, hq, rfl⟩
  · rintro ⟨q, hq, rfl⟩
    exact ⟨q, hq, rfl⟩

theorem mem_toSortedLines (lm : LineMap) (l : UncoveredLine) :
    l ∈ toSortedLines lm ↔ (l.Line, l.Col) ∈ lm := by
  unfold toSortedLines
  rw [(List.perm_insertionSort lineLe _).mem_iff, List.mem_map]
  constructor
  · rintro ⟨pr, hpr, rfl⟩
    exact hpr
  · intro h
    exact ⟨(l.Line, l.Col), h, rfl⟩

theorem toSortedLines_sorted (lm : LineMap) :
    (toSortedLines lm).Sorted lineLe :=
  List.sorted_insertionSort lineLe _

theorem map_line_toSortedLines_perm (lm : LineMap) :
    ((toSortedLines lm).map (fun l => l.Line)).Perm (akeys lm) := by
  have h1 : (toSortedLines lm).Perm (lm.map (fun p => ⟨p.1, p.2⟩)) :=
    List.perm_insertionSort _ _
  have h2 := h1.map (fun l => l.Line)
  rw [List.map_map] at h2
  exact h2

theorem toSortedLines_pairwise_lt (lm : LineMap)
    (hnd : (akeys lm).Nodup) : (toSortedLines lm).Pairwise lineLt := by
  have hs : (toSortedLines lm).Pairwise lineLe := toSortedLines_sorted lm
  have hmap : ((toSortedLines lm).map (fun l => l.Line)).Nodup :=
    (map_line_toSortedLines_perm lm).nodup_iff.mpr hnd
  have hne := List.pairwise_map.mp hmap
  exact (hs.and hne).imp (fun h => Nat.lt_of_le_of_ne h.1 h.2)

theorem eq_of_pairwise_lineLt {l₁ l₂ : List UncoveredLine}
    (h₁ : l₁.Pairwise lineLt) (h₂ : l₂.Pairwise lineLt)
    (hm : ∀ x, x ∈ l₁ ↔ x ∈ l₂) : l₁ = l₂ := by
  have hnd₁ : l₁.Nodup :=
    h₁.imp (fun h he => by rw [he] at h; exact Nat.lt_irrefl _ h)
  have hnd₂ : l₂.Nodup :=
    h₂.imp (fun h he => by rw [he] at h; exact Nat.lt_irrefl _ h)
  have hperm : l₁.Perm l₂ :=
    List.perm_of_nodup_nodup_toFinset_eq hnd₁ hnd₂ (by
      ext x
      simp only [List.mem_toFinset]
      exact hm x)
  exact List.eq_of_perm_of_sorted hperm h₁ h₂

theorem mem_getUncoveredLines_canon (p : Profile) (fu : FileUncovered) :
    fu ∈ GetUncoveredLines p ↔
      (∃ b ∈ p.Blocks, b.IsCovered = false ∧ b.FileName = fu.FileName) ∧
      fu.Lines.Pairwise lineLt ∧
      (∀ l : UncoveredLine, l ∈ fu.Lines ↔
        foldMerge none (candCols p.Blocks fu.FileName l.Line) = some l.Col) := by
  rw [mem_getUncoveredLines]
  constructor
  · rintro ⟨q, hq, rfl⟩
    have hknd := nodup_akeys_buildFileMap p.Blocks
    have hlnd := nodup_lineKeys_buildFileMap p.Blocks q hq
    refine ⟨?_, toSortedLines_pairwise_lt _ hlnd, ?_⟩
    · have hmem : q.1 ∈ akeys (buildFileMap p.Blocks) := by
        rw [akeys, List.mem_map]
        exact ⟨q, hq, rfl⟩
      exact (mem_akeys_buildFileMap _ _).mp hmem
    · intro l
      show l ∈ toSortedLines q.2 ↔ _
      rw [mem_toSortedLines, ← lookupFileLine_buildFileMap]
      unfold lookupFileLine
      rw [alookup_entry hknd hq]
      simp only [Option.some_bind]
      constructor
      · intro h
        exact alookup_of_mem hlnd h
      · intro h
        exact mem_of_alookup h
  · rintro ⟨⟨b, hb, hcov, hname⟩, hpw, hiff⟩
    have hmem : fu.FileName ∈ akeys (buildFileMap p.Blocks) :=
      (mem_akeys_buildFileMap _ _).mpr ⟨b, hb, hcov, hname⟩
    obtain ⟨lm, hlm⟩ :
        ∃ lm, alookup (buildFileMap p.Blocks) fu.FileName = some lm := by
      cases hl : alookup (buildFileMap p.Blocks) fu.FileName with
      | none => exact absurd hmem ((alookup_eq_none _ _).mp hl)
      | some lm => exact ⟨lm, rfl⟩
    have hq : (fu.FileName, lm) ∈ buildFileMap p.Blocks := mem_of_alookup hlm
    refine ⟨(fu.FileName, lm), hq, ?_⟩
    have hlnd := nodup_lineKeys_buildFileMap p.Blocks _ hq
    have hl2 : (toSortedLines lm).Pairwise lineLt :=
      toSortedLines_pairwise_lt _ hlnd
    have hmemiff : ∀ x, x ∈ fu.Lines ↔ x ∈ toSortedLines lm := by
      intro x
      rw [hiff x, mem_toSortedLines, ← lookupFileLine_buildFileMap]
      unfold lookupFileLine
      rw [hlm]
      simp only [Option.some_bind]
      constructor
      · intro h
        exact mem_of_alookup h
      · intro h
        exact alookup_of_mem hlnd h
    have hlines : fu.Lines = toSortedLines lm :=
      eq_of_pairwise_lineLt hpw hl2 hmemiff
    cases fu with
    | mk fn ls =>
      simp only at hlines
      rw [FileUncovered.mk.injEq]
      exact ⟨rfl, hlines⟩

theorem getUncoveredLines_names_perm (p : Profile) :
    ((GetUncoveredLines p).map FileUncovered.FileName).Perm
      (akeys (buildFileMap p.Blocks)) := by
  unfold GetUncoveredLines
  have h := (List.perm_insertionSort fileLe
    ((buildFileMap p.Blocks).map
      (fun q => (⟨q.1, toSortedLines q.2⟩ : FileUncovered)))).map
    FileUncovered.FileName
  rw [List.map_map] at h
  exact h

theorem getUncoveredLines_names_nodup (p : Profile) :
    ((GetUncoveredLines p).map FileUncovered.FileName).Nodup :=
  (getUncoveredLines_names_perm p).nodup_iff.mpr (nodup_akeys_buildFileMap _)

theorem getUncoveredLines_sorted_le (p : Profile) :
    (GetUncoveredLines p).Pairwise fileLe :=
  List.sorted_insertionSort fileLe _

theorem getUncoveredLines_sorted_lt (p : Profile) :
    (GetUncoveredLines p).Pairwise fileLt := by
  have hs := getUncoveredLines_sorted_le p
  have hne := List.pairwise_map.mp (getUncoveredLines_names_nodup p)
  exact (hs.and hne).imp
    (fun h => lt_of_le_of_ne h.1 (fun hd => h.2 (string_data_inj hd)))

theorem mem_blockLines (b : Block) (n : Nat) :
    n ∈ blockLines b ↔ b.StartLine ≤ n ∧ n ≤ b.EndLine := by
  unfold blockLines
  rw [List.mem_range'_1]
  omega

theorem isCovered_eq_false_iff (b : Block) :
    b.IsCovered = false ↔ b.ExecutionCount = 0 := by
  simp [Block.IsCovered]

instance : RightCommutative (fun (o : Option Nat) (c : Nat) => some (mergeCol o c)) :=
  ⟨by
    intro b a₁ a₂
    cases b <;> simp [mergeCol] <;> omega⟩

theorem candCols_perm {bs1 bs2 : List Block} (h : bs1.Perm bs2) (f : String)
    (n : Nat) : (candCols bs1 f n).Perm (candCols bs2 f n) :=
  h.filterMap _

theorem foldMerge_perm {cs1 cs2 : List Nat} (h : cs1.Perm cs2) (o : Option Nat) :
    foldMerge o cs1 = foldMerge o cs2 := by
  unfold foldMerge
  exact h.foldl_eq o

end coverage

/-- C1: for every block of the profile with execution count 0 and
`StartLine ≤ EndLine`, every line number in `[StartLine, EndLine]` appears
in the `UncoveredLine`s that `GetUncoveredLines` returns for that block's
file. -/
theorem getUncoveredLines_completeness (p : coverage.Profile)
    (b : coverage.Block) (hb : b ∈ p.Blocks)
    (hexec : b.ExecutionCount = 0) (_hrange : b.StartLine ≤ b.EndLine)
    (n : Nat) (h1 : b.StartLine ≤ n) (h2 : n ≤ b.EndLine) :
    ∃ fu ∈ coverage.GetUncoveredLines p, fu.FileName = b.FileName ∧
      ∃ l ∈ fu.Lines, l.Line = n := by
  have hcov : b.IsCovered = false := (coverage.isCovered_eq_false_iff b).mpr hexec
  have hmem : n ∈ coverage.blockLines b := (coverage.mem_blockLines b n).mpr ⟨h1, h2⟩
  have hcand : coverage.colFor b n ∈ coverage.candCols p.Blocks b.FileName n := by
    rw [coverage.candCols, List.mem_filterMap]
    exact ⟨b, hb, by rw [if_pos ⟨hcov, rfl, hmem⟩]⟩
  have hne : coverage.candCols p.Blocks b.FileName n ≠ [] := by
    intro he
    rw [he] at hcand
    simp at hcand
  obtain ⟨m, hm⟩ :
      ∃ m, coverage.foldMerge none (coverage.candCols p.Blocks b.FileName n) =
        some m := by
    cases hfm : coverage.foldMerge none (coverage.candCols p.Blocks b.FileName n) with
    | none => exact absurd ((coverage.foldMerge_none_eq_none_iff _).mp hfm) hne
    | some m => exact ⟨m, rfl⟩
  have hlook : coverage.lookupFileLine (coverage.buildFileMap p.Blocks)
      b.FileName n = some m := by
    rw [coverage.lookupFileLine_buildFileMap]
    exact hm
  unfold coverage.lookupFileLine at hlook
  obtain ⟨lm, hlm, hcol⟩ :
      ∃ lm, coverage.alookup (coverage.buildFileMap p.Blocks) b.FileName = some lm ∧
        coverage.alookup lm n = some m := by
    cases hl : coverage.alookup (coverage.buildFileMap p.Blocks) b.FileName with
    | none =>
      rw [hl] at hlook
      simp at hlook
    | some lm =>
      rw [hl] at hlook
      simp only [Option.some_bind] at hlook
      exact ⟨lm, rfl, hlook⟩
  refine ⟨⟨b.FileName, coverage.toSortedLines lm⟩, ?_, rfl, ⟨n, m⟩, ?_, rfl⟩
  · rw [coverage.mem_getUncoveredLines]
    exact ⟨(b.FileName, lm), coverage.mem_of_alookup hlm, rfl⟩
  · show (⟨n, m⟩ : coverage.UncoveredLine) ∈ coverage.toSortedLines lm
    rw [coverage.mem_toSortedLines]
    exact coverage.mem_of_alookup hcol

/-- Witness for C1 at a concrete one-block profile. -/
theorem getUncoveredLines_completeness_witness :
    ((⟨"f", 2, 1, 3, 2, 0⟩ : coverage.Block) ∈
      (coverage.Profile.mk [⟨"f", 2, 1, 3, 2, 0⟩]).Blocks) ∧
    (⟨"f", 2, 1, 3, 2, 0⟩ : coverage.Block).ExecutionCount = 0 ∧
    (⟨"f", 2, 1, 3, 2, 0⟩ : coverage.Block).StartLine ≤
      (⟨"f", 2, 1, 3, 2, 0⟩ : coverage.Block).EndLine ∧
    (∃ fu ∈ coverage.GetUncoveredLines ⟨[⟨"f", 2, 1, 3, 2, 0⟩]⟩,
      fu.FileName = (⟨"f", 2, 1, 3, 2, 0⟩ : coverage.Block).FileName ∧
      ∃ l ∈ fu.Lines, l.Line = 3) :=
  ⟨by decide, rfl, by decide,
    getUncoveredLines_completeness _ _ (by decide) rfl (by decide) 3
      (by decide) (by decide)⟩

/-- C2 counterexample: a file whose only uncovered block has an inverted
range (`EndLine < StartLine`) is NOT omitted — `GetUncoveredLines` returns
it with an empty line list, contradicting "files with zero uncovered lines
are omitted entirely". -/
theorem getUncoveredLines_contract_cex :
    coverage.GetUncoveredLines ⟨[⟨"a", 2, 1, 1, 1, 0⟩]⟩ =
      [⟨"a", []⟩] := by decide

/-- C2 (amended): `GetUncoveredLines` returns one `FileUncovered` exactly
for every file named by at least one uncovered block (a file whose only
uncovered blocks have inverted ranges appears with an empty line list);
the file list is sorted lexicographically by name (strictly, so names are
distinct); lines within each file are sorted ascending and pairwise
distinct; and when every uncovered block is well-formed
(`StartLine ≤ EndLine`) every returned file has at least one line. -/
theorem getUncoveredLines_contract (p : coverage.Profile) :
    (∀ f, (∃ fu ∈ coverage.GetUncoveredLines p, fu.FileName = f) ↔
      ∃ b ∈ p.Blocks, b.IsCovered = false ∧ b.FileName = f) ∧
    ((coverage.GetUncoveredLines p).map
      (fun fu => fu.FileName.data)).Pairwise (· < ·) ∧
    (∀ fu ∈ coverage.GetUncoveredLines p,
      (fu.Lines.map (fun l => l.Line)).Pairwise (· < ·)) ∧
    ((∀ b ∈ p.Blocks, b.IsCovered = false → b.StartLine ≤ b.EndLine) →
      ∀ fu ∈ coverage.GetUncoveredLines p, fu.Lines ≠ []) := by
  refine ⟨?_, ?_, ?_, ?_⟩
  · intro f
    constructor
    · rintro ⟨fu, hfu, rfl⟩
      exact ((coverage.mem_getUncoveredLines_canon p fu).mp hfu).1
    · intro hex
      have hmem : f ∈ coverage.akeys (coverage.buildFileMap p.Blocks) :=
        (coverage.mem_akeys_buildFileMap _ f).mpr hex
      obtain ⟨lm, hlm⟩ :
          ∃ lm, coverage.alookup (coverage.buildFileMap p.Blocks) f = some lm := by
        cases hl : coverage.alookup (coverage.buildFileMap p.Blocks) f with
        | none => exact absurd hmem ((coverage.alookup_eq_none _ _).mp hl)
        | some lm => exact ⟨lm, rfl⟩
      refine ⟨⟨f, coverage.toSortedLines lm⟩, ?_, rfl⟩
      rw [coverage.mem_getUncoveredLines]
      exact ⟨(f, lm), coverage.mem_of_alookup hlm, rfl⟩
  · exact List.pairwise_map.mpr (coverage.getUncoveredLines_sorted_lt p)
  · intro fu hfu
    exact List.pairwise_map.mpr
      ((coverage.mem_getUncoveredLines_canon p fu).mp hfu).2.1
  · intro hwf fu hfu hemp
    obtain ⟨⟨b, hb, hcov, hname⟩, _, hiff⟩ :=
      (coverage.mem_getUncoveredLines_canon p fu).mp hfu
    have hrange := hwf b hb hcov
    have hmem : b.StartLine ∈ coverage.blockLines b :=
      (coverage.mem_blockLines b _).mpr ⟨Nat.le_refl _, hrange⟩
    have hcand : coverage.colFor b b.StartLine ∈
        coverage.candCols p.Blocks fu.FileName b.StartLine := by
      rw [coverage.candCols, List.mem_filterMap]
      exact ⟨b, hb, by rw [if_pos ⟨hcov, hname, hmem⟩]⟩
    have hne : coverage.candCols p.Blocks fu.FileName b.StartLine ≠ [] := by
      intro he
      rw [he] at hcand
      simp at hcand
    obtain ⟨m, hm⟩ : ∃ m, coverage.foldMerge none
        (coverage.candCols p.Blocks fu.FileName b.StartLine) = some m := by
      cases hfm : coverage.foldMerge none
          (coverage.candCols p.Blocks fu.FileName b.StartLine) with
      | none => exact absurd ((coverage.foldMerge_none_eq_none_iff _).mp hfm) hne
      | some m => exact ⟨m, rfl⟩
    have : (⟨b.StartLine, m⟩ : coverage.UncoveredLine) ∈ fu.Lines :=
      (hiff ⟨b.StartLine, m⟩).mpr hm
    rw [hemp] at this
    simp at this

/-- Witness for C2's well-formed-blocks clause at a concrete profile. -/
theorem getUncoveredLines_contract_witness :
    (∀ b ∈ (coverage.Profile.mk [⟨"f", 2, 1, 3, 2, 0⟩]).Blocks,
      b.IsCovered = false → b.StartLine ≤ b.EndLine) ∧
    (∀ fu ∈ coverage.GetUncoveredLines ⟨[⟨"f", 2, 1, 3, 2, 0⟩]⟩,
      fu.Lines ≠ []) :=
  ⟨by decide, (getUncoveredLines_contract _).2.2.2 (by decide)⟩

/-- C5: for every `(file, line)` in the output, the recorded column is the
minimum of the candidate columns over all uncovered blocks of that file
whose span contains the line (`StartCol` on the block's first line, `0` on
later lines). -/
theorem getUncoveredLines_col_min (p : coverage.Profile)
    (fu : coverage.FileUncovered) (hfu : fu ∈ coverage.GetUncoveredLines p)
    (l : coverage.UncoveredLine) (hl : l ∈ fu.Lines) :
    l.Col ∈ coverage.candCols p.Blocks fu.FileName l.Line ∧
    ∀ c ∈ coverage.candCols p.Blocks fu.FileName l.Line, l.Col ≤ c := by
  obtain ⟨_, _, hiff⟩ := (coverage.mem_getUncoveredLines_canon p fu).mp hfu
  exact coverage.foldMerge_none_spec _ _ ((hiff l).mp hl)

/-- Witness for C5: two overlapping uncovered blocks give line 10 the
candidate columns 5 (block start) and 0 (continuation); the output records
column 0, the minimum. -/
theorem getUncoveredLines_col_min_witness :
    ((⟨"f", [⟨9, 2⟩, ⟨10, 0⟩]⟩ : coverage.FileUncovered) ∈
      coverage.GetUncoveredLines
        ⟨[⟨"f", 10, 5, 10, 9, 0⟩, ⟨"f", 9, 2, 10, 9, 0⟩]⟩) ∧
    ((⟨10, 0⟩ : coverage.UncoveredLine) ∈
      (⟨"f", [⟨9, 2⟩, ⟨10, 0⟩]⟩ : coverage.FileUncovered).Lines) ∧
    ((0 : Nat) ∈ coverage.candCols
        [⟨"f", 10, 5, 10, 9, 0⟩, ⟨"f", 9, 2, 10, 9, 0⟩] "f" 10 ∧
      ∀ c ∈ coverage.candCols
        [⟨"f", 10, 5, 10, 9, 0⟩, ⟨"f", 9, 2, 10, 9, 0⟩] "f" 10,
        (0 : Nat) ≤ c) :=
  ⟨by decide, by decide,
    getUncoveredLines_col_min
      ⟨[⟨"f", 10, 5, 10, 9, 0⟩, ⟨"f", 9, 2, 10, 9, 0⟩]⟩
      ⟨"f", [⟨9, 2⟩, ⟨10, 0⟩]⟩ (by decide) ⟨10, 0⟩ (by decide)⟩

/-- C9: `GetUncoveredLines` is invariant under permutation of the block
list: the keep-smaller-column merge is a commutative reduction and the
output is canonically sorted. -/
theorem getUncoveredLines_perm_invariant (p q : coverage.Profile)
    (h : p.Blocks.Perm q.Blocks) :
    coverage.GetUncoveredLines p = coverage.GetUncoveredLines q := by
  have hmem : ∀ fu, fu ∈ coverage.GetUncoveredLines p ↔
      fu ∈ coverage.GetUncoveredLines q := by
    intro fu
    rw [coverage.mem_getUncoveredLines_canon, coverage.mem_getUncoveredLines_canon]
    have h1 : (∃ b ∈ p.Blocks, b.IsCovered = false ∧ b.FileName = fu.FileName) ↔
        ∃ b ∈ q.Blocks, b.IsCovered = false ∧ b.FileName = fu.FileName := by
      constructor
      · rintro ⟨b, hb, hP⟩
        exact ⟨b, h.mem_iff.mp hb, hP⟩
      · rintro ⟨b, hb, hP⟩
        exact ⟨b, h.mem_iff.mpr hb, hP⟩
    have h2 : ∀ l : coverage.UncoveredLine,
        (coverage.foldMerge none
          (coverage.candCols p.Blocks fu.FileName l.Line) = some l.Col) ↔
        (coverage.foldMerge none
          (coverage.candCols q.Blocks fu.FileName l.Line) = some l.Col) := by
      intro l
      rw [coverage.foldMerge_perm (coverage.candCols_perm h _ _)]
    rw [h1]
    constructor
    · rintro ⟨ha, hb, hc⟩
      exact ⟨ha, hb, fun l => (hc l).trans (h2 l)⟩
    · rintro ⟨ha, hb, hc⟩
      exact ⟨ha, hb, fun l => (hc l).trans (h2 l).symm⟩
  have hnd1 : (coverage.GetUncoveredLines p).Nodup :=
    List.Nodup.of_map _ (coverage.getUncoveredLines_names_nodup p)
  have hnd2 : (coverage.GetUncoveredLines q).Nodup :=
    List.Nodup.of_map _ (coverage.getUncoveredLines_names_nodup q)
  have hperm : (coverage.GetUncoveredLines p).Perm (coverage.GetUncoveredLines q) :=
    List.perm_of_nodup_nodup_toFinset_eq hnd1 hnd2 (by
      ext fu
      simp only [List.mem_toFinset]
      exact hmem fu)
  exact List.eq_of_perm_of_sorted hperm
    (coverage.getUncoveredLines_sorted_lt p)
    (coverage.getUncoveredLines_sorted_lt q)

/-- Witness for C9: swapping two blocks leaves the output unchanged. -/
theorem getUncoveredLines_perm_invariant_witness :
    ((coverage.Profile.mk
        [⟨"f", 1, 1, 1, 2, 0⟩, ⟨"f", 5, 3, 5, 4, 0⟩]).Blocks.Perm
      (coverage.Profile.mk
        [⟨"f", 5, 3, 5, 4, 0⟩, ⟨"f", 1, 1, 1, 2, 0⟩]).Blocks) ∧
    coverage.GetUncoveredLines ⟨[⟨"f", 1, 1, 1, 2, 0⟩, ⟨"f", 5, 3, 5, 4, 0⟩]⟩ =
      coverage.GetUncoveredLines ⟨[⟨"f", 5, 3, 5, 4, 0⟩, ⟨"f", 1, 1, 1, 2, 0⟩]⟩ :=
  ⟨List.Perm.swap _ _ _,
    getUncoveredLines_perm_invariant _ _ (List.Perm.swap _ _ _)⟩

/-- Witness for C7 at the spec's 21-byte file name. -/
theorem printFileHeader_format_witness :
    ("example/calculator.go".utf8ByteSize = 21) ∧
    ((renderer.printFileHeader "example/calculator.go" 29 59).getD 1 "").length
      = 48 :=
  ⟨by decide, (printFileHeader_format "example/calculator.go" 29 59).2 (by decide)⟩
